import Mathlib

/-!
Verification development for the Merkle Prefix Tree implementation
(merkle_prefix_tree/tree.py and merkle_prefix_tree/nodes.py).

The tree is embedded shallowly as a heap model: materialized nodes live in a
list, an address is an index into that list, and the root is always address 0.
Python object mutation becomes functional update of the node list; Python
exceptions become explicit result constructors that carry the (possibly
mutated) post-state, matching the fact that a Python object survives a raised
exception with all mutations performed so far still visible.
-/

/-- Python bytes values, as lists of byte-sized naturals. -/
abbrev Digest := List Nat

/-- Heap addresses: an index into the node list of a tree. -/
abbrev Addr := Nat

/-- nodes.py TreeNode: `bit`, `left`, `right`, `parent`, `hash`; DataNode
additionally stores `data` and is tagged with `isData := true`.  Absent
children/parents are `none`; an unset hash (Python `None`) is `none`. -/
structure TNode (α : Type) where
  bit : Option Char
  left : Option Addr
  right : Option Addr
  parent : Option Addr
  hash : Option Digest
  isData : Bool
  data : Option α
deriving DecidableEq

/-- Placeholder node returned for an out-of-range address (never reached by
runs that start from a constructed tree). -/
def dfltNode {α : Type} : TNode α := ⟨none, none, none, none, none, false, none⟩

/-- nodes.py `InteriorNode(bit)`: fresh interior node, hash `None`. -/
def freshInterior {α : Type} (c : Char) : TNode α :=
  ⟨some c, none, none, none, none, false, none⟩

/-- nodes.py `DataNode(bit, data, hash_func, serialize_func)`: the constructor
immediately sets `hash = hash_func(serialize_func(data))`. -/
def mkDataNode {α : Type} (c : Option Char) (v : α)
    (hf : Digest → Digest) (sf : α → Digest) : TNode α :=
  ⟨c, none, none, none, some (hf (sf v)), true, some v⟩

/-- tree.py MerklePrefixTree state: height, append_only flag, the two injected
functions, and the heap of materialized nodes (root at address 0). -/
structure MPT (α : Type) where
  height : Nat
  appendOnly : Bool
  hashFunc : Digest → Digest
  serializeFunc : α → Digest
  nodes : List (TNode α)

/-- Read a node from the heap. -/
def getNode {α : Type} (ns : List (TNode α)) (a : Addr) : TNode α :=
  ns.getD a dfltNode

/-- Mutate the node at address `a` by `f` (no-op when out of range, which
never happens in runs from a constructed tree). -/
def setNode {α : Type} (ns : List (TNode α)) (a : Addr) (f : TNode α → TNode α) :
    List (TNode α) :=
  ns.set a (f (getNode ns a))

def setLeft {α : Type} (ns : List (TNode α)) (a : Addr) (w : Addr) : List (TNode α) :=
  setNode ns a (fun n => { n with left := some w })

def setRight {α : Type} (ns : List (TNode α)) (a : Addr) (w : Addr) : List (TNode α) :=
  setNode ns a (fun n => { n with right := some w })

def setParent {α : Type} (ns : List (TNode α)) (a : Addr) (w : Addr) : List (TNode α) :=
  setNode ns a (fun n => { n with parent := some w })

def setHash {α : Type} (ns : List (TNode α)) (a : Addr) (d : Digest) : List (TNode α) :=
  setNode ns a (fun n => { n with hash := some d })

/-- `curr_node.left if bit == '0' else curr_node.right`: any character other
than '0' selects the right child, exactly as the Python conditional does. -/
def slotOf {α : Type} (n : TNode α) (c : Char) : Option Addr :=
  if c = '0' then n.left else n.right

/-- `curr_node.right if bit == '0' else curr_node.left` (the opposite child,
used by produce_inclusion_proof). -/
def oppOf {α : Type} (n : TNode α) (c : Char) : Option Addr :=
  if c = '0' then n.right else n.left

/-- `if bit == '0': parent.left = new else: parent.right = new`. -/
def setSlot {α : Type} (ns : List (TNode α)) (a : Addr) (c : Char) (w : Addr) :
    List (TNode α) :=
  if c = '0' then setLeft ns a w else setRight ns a w

/-- `k_empty = bin(0)`, i.e. the Python string "0b0", UTF-8 encoded. -/
def kEmpty : Digest := [48, 98, 48]

/-- `_hash_hashes(hash_1, hash_2, hash_func)`: concatenate (hash_1 left) and
hash the result. -/
def hashHashes (hf : Digest → Digest) (h1 h2 : Digest) : Digest := hf (h1 ++ h2)

/-- The chain of hashes computed by `_precompute_empty_hashes`: `n` doublings
applied on top of `hash_func(k_empty)`. -/
def emptyHashAux (hf : Digest → Digest) : Nat → Digest
  | 0 => hf kEmpty
  | n + 1 => hashHashes hf (emptyHashAux hf n) (emptyHashAux hf n)

/-- `_empty_tree_hash_dict[d]` for depth `d` (keys 0..height in the code;
the run never reads other depths). -/
def emptyTreeHash (hf : Digest → Digest) (height d : Nat) : Digest :=
  emptyHashAux hf (height - d)

/-- `MerklePrefixTree.__init__`: fails (ValueError) when height < 1, otherwise
builds the root interior node whose hash is the empty-tree root hash, set by
`_precompute_empty_hashes`. -/
def mkTree (α : Type) (height : Nat) (ao : Bool)
    (hf : Digest → Digest) (sf : α → Digest) : Option (MPT α) :=
  if height < 1 then none
  else some ⟨height, ao, hf, sf,
    [⟨none, none, none, none, some (emptyTreeHash hf height 0), false, none⟩]⟩

/-- `get_root_hash`. -/
def getRootHash {α : Type} (t : MPT α) : Option Digest := (getNode t.nodes 0).hash

/-- `_verify_prefix`: length equals the height and every character is
'0' or '1' (both violations raise ValueError in the code). -/
def verifyPfx {α : Type} (t : MPT α) (p : List Char) : Bool :=
  p.length == t.height && p.all (fun c => c == '0' || c == '1')

/-- Python exceptions distinguished by the model. -/
inductive PyErr where
  | valueErr
  | typeErr
  | indexErr
deriving DecidableEq

/-- Walk from address `a` consuming one character per level. -/
def descend {α : Type} (ns : List (TNode α)) : Addr → List Char → Option Addr
  | a, [] => some a
  | a, c :: cs =>
    match slotOf (getNode ns a) c with
    | none => none
    | some b => descend ns b cs

/-- `get_data_node`: verify the prefix, then follow it from the root,
returning `none` as soon as a child is absent, else the final node. -/
def getDataNode {α : Type} (t : MPT α) (p : List Char) :
    Except PyErr (Option (TNode α)) :=
  if verifyPfx t p then .ok ((descend t.nodes 0 p).map (getNode t.nodes))
  else .error .valueErr

/-- Outcome of the node-linking loop of `append` (lines 166-195). -/
inductive AppendGoRes (α : Type) where
  | raiseAO (ns : List (TNode α))
  | done (ns : List (TNode α)) (leaf : Addr)

/-- The body of `append`'s for-loop.  At each level the old child is read,
then a new node (a fresh InteriorNode, or at the terminal level the DataNode
allocated at `dAddr`) is unconditionally linked in as the parent's child, and
the walk continues into the old child when one existed.  At the terminal
level, when `append_only` is set the code raises AppendOnlyError
unconditionally, after the links were already mutated.  The discarded
`InteriorNode(bit)` that Python allocates at the terminal level before
rebinding `new_node` to the data node is garbage and is not modelled. -/
def appendGo {α : Type} (ao : Bool) (dAddr : Addr) :
    List (TNode α) → Addr → List Char → AppendGoRes α
  | ns, prevA, [] => .done ns prevA
  | ns, prevA, [c] =>
    let ns1 := setParent ns dAddr prevA
    let ns2 := setSlot ns1 prevA c dAddr
    if ao then .raiseAO ns2 else .done ns2 dAddr
  | ns, prevA, c :: c2 :: cs =>
    let currOpt := slotOf (getNode ns prevA) c
    let fAddr := ns.length
    let ns1 := ns ++ [freshInterior c]
    let ns2 := setParent ns1 fAddr prevA
    let ns3 := setSlot ns2 prevA c fAddr
    appendGo ao dAddr ns3 (currOpt.getD fAddr) (c2 :: cs)

/-- Outcome of `_rehash`: either all `height` iterations completed, or an
exception (TypeError from concatenating a `None` hash, or AttributeError from
a missing parent) aborted it with the mutations so far kept. -/
inductive RehashRes (α : Type) where
  | crashed (ns : List (TNode α))
  | ok (ns : List (TNode α))

/-- One can read off the node list from either outcome. -/
def rehashNs {α : Type} : RehashRes α → List (TNode α)
  | .crashed ns => ns
  | .ok ns => ns

/-- `_rehash`'s loop: `fuel` is the number of remaining iterations, so the
current Python loop index is `fuel - 1` and the empty-hash lookup uses
depth `fuel` (i.e. `i + 1`).  Reading a child whose hash is Python `None`
makes `hash_1 + hash_2` raise TypeError; a `None` parent raises
AttributeError.  Both abort with the state mutated so far. -/
def rehashGo {α : Type} (hf : Digest → Digest) (height : Nat) :
    List (TNode α) → Addr → Nat → RehashRes α
  | ns, _, 0 => .ok ns
  | ns, curr, f + 1 =>
    match (getNode ns curr).parent with
    | none => .crashed ns
    | some pa =>
      let e := emptyTreeHash hf height (f + 1)
      let lh : Option Digest :=
        match (getNode ns pa).left with
        | some la => (getNode ns la).hash
        | none => some e
      let rh : Option Digest :=
        match (getNode ns pa).right with
        | some ra => (getNode ns ra).hash
        | none => some e
      match lh, rh with
      | some l, some r => rehashGo hf height (setHash ns pa (hashHashes hf l r)) pa f
      | _, _ => .crashed ns

/-- `_rehash`: TypeError when the starting node is not a DataNode, else run
the loop `height` times, walking up parents. -/
def rehash {α : Type} (hf : Digest → Digest) (height : Nat)
    (ns : List (TNode α)) (leaf : Addr) : RehashRes α :=
  if (getNode ns leaf).isData then rehashGo hf height ns leaf height
  else .crashed ns

/-- Result of a public `append` call.  Every constructor carries the complete
post-state, because a Python exception leaves the object with all mutations
performed before the raise. -/
inductive AppendResult (α : Type) where
  | ok (t : MPT α)
  | badPfx (t : MPT α)
  | aoRaise (t : MPT α)
  | crash (t : MPT α)

/-- Tags for the four append outcomes. -/
inductive ResTag where
  | ok
  | badPfx
  | aoRaise
  | crash
deriving DecidableEq

def resTag {α : Type} : AppendResult α → ResTag
  | .ok _ => .ok
  | .badPfx _ => .badPfx
  | .aoRaise _ => .aoRaise
  | .crash _ => .crash

def resState {α : Type} : AppendResult α → MPT α
  | .ok t => t
  | .badPfx t => t
  | .aoRaise t => t
  | .crash t => t

/-- `append`: verify the prefix, allocate the DataNode (bit = `prefix[-1]`),
run the linking loop from the root, then `_rehash` from the new leaf. -/
def append {α : Type} (t : MPT α) (p : List Char) (v : α) : AppendResult α :=
  if verifyPfx t p then
    let dAddr := t.nodes.length
    let d := mkDataNode p.getLast? v t.hashFunc t.serializeFunc
    match appendGo t.appendOnly dAddr (t.nodes ++ [d]) 0 p with
    | .raiseAO ns => .aoRaise ⟨t.height, t.appendOnly, t.hashFunc, t.serializeFunc, ns⟩
    | .done ns leaf =>
      match rehash t.hashFunc t.height ns leaf with
      | .crashed ns2 => .crash ⟨t.height, t.appendOnly, t.hashFunc, t.serializeFunc, ns2⟩
      | .ok ns2 => .ok ⟨t.height, t.appendOnly, t.hashFunc, t.serializeFunc, ns2⟩
  else .badPfx t

/-- `produce_inclusion_proof`'s loop: at level `i` record the opposite
child's hash (Python `None` included verbatim when that hash is unset) or the
empty hash of depth `i + 1`; an absent child on the walk returns the empty
list, discarding what was collected. -/
def produceGo {α : Type} (hf : Digest → Digest) (height : Nat)
    (ns : List (TNode α)) :
    Addr → List Char → Nat → List (Option Digest) → List (Option Digest)
  | _, [], _, acc => acc
  | a, c :: cs, i, acc =>
    let n := getNode ns a
    match slotOf n c with
    | none => []
    | some b =>
      let ph : Option Digest :=
        match oppOf n c with
        | some oa => (getNode ns oa).hash
        | none => some (emptyTreeHash hf height (i + 1))
      produceGo hf height ns b cs (i + 1) (acc ++ [ph])

/-- `produce_inclusion_proof`. -/
def produceInclusionProof {α : Type} (t : MPT α) (p : List Char) :
    Except PyErr (List (Option Digest)) :=
  if verifyPfx t p then .ok (produceGo t.hashFunc t.height t.nodes 0 p 0 [])
  else .error .valueErr

/-- `validate_inclusion_proof`'s loop, folding indices `len(proof)-1` down to
`0`; `fuel` is the number of remaining iterations so the current index is
`fuel - 1`.  `prefix[i]` raises IndexError when the proof is longer than the
prefix; a `None` proof element raises TypeError inside `_hash_hashes`. -/
def validateGo (hf : Digest → Digest) (p : List Char)
    (proof : List (Option Digest)) : Digest → Nat → Except PyErr Digest
  | calcH, 0 => .ok calcH
  | calcH, f + 1 =>
    if f < p.length then
      match proof.getD f none with
      | none => .error .typeErr
      | some pd =>
        let lh := if p.getD f ' ' = '0' then calcH else pd
        let rh := if p.getD f ' ' = '1' then calcH else pd
        validateGo hf p proof (hashHashes hf lh rh) f
    else .error .indexErr

/-- `validate_inclusion_proof`. -/
def validateInclusionProof {α : Type} (t : MPT α) (p : List Char)
    (proof : List (Option Digest)) (includedHash rootHash : Digest) :
    Except PyErr Bool :=
  if verifyPfx t p then
    match validateGo t.hashFunc p proof includedHash proof.length with
    | .ok c => .ok (c == rootHash)
    | .error e => .error e
  else .error .valueErr

/-- The data payload `get_data_node` finds at a prefix, when any. -/
def dataAt {α : Type} (t : MPT α) (p : List Char) : Option α :=
  match getDataNode t p with
  | .ok (some n) => n.data
  | _ => none

/-- Decidable check of the spec's digest-consistency invariant on the subtree
rooted at address `a` sitting at depth `d`: every reachable interior node's
hash must equal `hash_func(left_digest ++ right_digest)` with an absent
child's digest taken from the empty-hash table at the child's depth.  `fuel`
bounds the recursion (`height + 1` suffices for trees of the given height). -/
def subtreeOk {α : Type} (hf : Digest → Digest) (height : Nat)
    (ns : List (TNode α)) : Nat → Addr → Nat → Bool
  | 0, _, _ => true
  | fuel + 1, a, d =>
    let n := getNode ns a
    if n.isData then true
    else
      let ld : Option Digest :=
        match n.left with
        | some la => (getNode ns la).hash
        | none => some (emptyTreeHash hf height (d + 1))
      let rd : Option Digest :=
        match n.right with
        | some ra => (getNode ns ra).hash
        | none => some (emptyTreeHash hf height (d + 1))
      (match ld, rd with
       | some l, some r => n.hash == some (hashHashes hf l r)
       | _, _ => false) &&
      (match n.left with
       | some la => subtreeOk hf height ns fuel la (d + 1)
       | none => true) &&
      (match n.right with
       | some ra => subtreeOk hf height ns fuel ra (d + 1)
       | none => true)

/-- Digest consistency of every node reachable from the root. -/
def treeConsistent {α : Type} (t : MPT α) : Bool :=
  subtreeOk t.hashFunc t.height t.nodes (t.height + 1) 0 0

/-- The materialized part of the root-to-prefix path: the addresses visited
when following the prefix from `a`, stopping at the first absent child. -/
def pathAddrs {α : Type} (ns : List (TNode α)) : Addr → List Char → List Addr
  | a, [] => [a]
  | a, c :: cs =>
    match slotOf (getNode ns a) c with
    | none => [a]
    | some b => a :: pathAddrs ns b cs

/-- `parentChain ns a [c1, ..., ck]`: from `a` the parent pointers lead
successively through `c1, ..., ck`. -/
def parentChain {α : Type} (ns : List (TNode α)) : Addr → List Addr → Prop
  | _, [] => True
  | a, c :: cs => (getNode ns a).parent = some c ∧ parentChain ns c cs

/-- The final element of the chain `a :: ch`. -/
def chainLast (a : Addr) : List Addr → Addr
  | [] => a
  | c :: cs => chainLast c cs

/-- The node list carried by either outcome of the linking loop. -/
def goNs {α : Type} : AppendGoRes α → List (TNode α)
  | .raiseAO ns => ns
  | .done ns _ => ns

/-- Frame property: every pre-existing address off the list `P` is unchanged. -/
def framePres {α : Type} (dAddr : Addr) (P : List Addr)
    (ns nsOut : List (TNode α)) : Prop :=
  ∀ a : Addr, a < dAddr → a ∉ P → nsOut.get? a = ns.get? a

/-- Parent pointers of all pre-existing nodes other than the data node are
untouched by the linking loop. -/
def parentsPres {α : Type} (bound dAddr : Addr) (ns nsOut : List (TNode α)) : Prop :=
  ∀ a : Addr, a < bound → a ≠ dAddr → (getNode nsOut a).parent = (getNode ns a).parent

/-- Every chain element is on the path `P` or is a newly allocated node. -/
def goodChain (dAddr : Addr) (P ch : List Addr) : Prop :=
  ∀ x ∈ ch, x ∈ P ∨ dAddr ≤ x

/-- Consecutive elements of the list are linked by correct parent
back-pointers: each element's parent is its predecessor in the list. -/
def consecParentB {α : Type} (ns : List (TNode α)) : List Addr → Bool
  | [] => true
  | [_] => true
  | x :: y :: rest => ((getNode ns y).parent == some x) && consecParentB ns (y :: rest)

/-- Structural sanity of the materialized root-to-`p` path of `t`: the path
addresses are pairwise distinct and in range, and parent back-pointers along
the path agree with the child links.  Every tree the public API can build
satisfies this. -/
def pathOk {α : Type} (t : MPT α) (p : List Char) : Bool :=
  let P := pathAddrs t.nodes 0 p
  decide P.Nodup && P.all (fun x => x < t.nodes.length) && consecParentB t.nodes P

/-- The digest produce_inclusion_proof records for index `j`: the sibling of
the path node at depth `j + 1`, read through the first `j` prefix bits. -/
def sibDigestAt {α : Type} (t : MPT α) (p : List Char) (j : Nat) : Option Digest :=
  match descend t.nodes 0 (p.take j) with
  | none => none
  | some b =>
    match oppOf (getNode t.nodes b) (p.getD j ' ') with
    | some oa => (getNode t.nodes oa).hash
    | none => some (emptyTreeHash t.hashFunc t.height (j + 1))

/-- Whether the full root-to-leaf path for `p` is materialized. -/
def fullPath {α : Type} (t : MPT α) (p : List Char) : Bool :=
  (descend t.nodes 0 p).isSome

/-- Concrete hash function for executable runs: prefix the byte string with
its length.  (Stand-in for the default sha256-based function.) -/
def testHash (b : Digest) : Digest := b.length :: b

/-- Concrete serializer for naturals. -/
def testSer (n : Nat) : Digest := [n]

/-- Fallback tree for total extraction from `mkTree`'s Option result. -/
def mptDflt : MPT Nat := ⟨0, false, testHash, testSer, []⟩

/-- Height-2 overwrite-mode tree. -/
def t2 : MPT Nat := (mkTree Nat 2 false testHash testSer).getD mptDflt

def p00 : List Char := ['0', '0']

def p01 : List Char := ['0', '1']

/-- t2 after `append('00', 3)` (which succeeds). -/
def s1 : MPT Nat := resState (append t2 p00 3)

/-- s1 after `append('01', 4)` — the call that exhibits the linking bug. -/
def s2 : MPT Nat := resState (append s1 p01 4)

/-- Height-1 append-only tree. -/
def tAO : MPT Nat := (mkTree Nat 1 true testHash testSer).getD mptDflt

/-- The first-ever append on the append-only tree. -/
def aoRes : AppendResult Nat := append tAO ['0'] 7

/-- C1: the spec claims that after `append(p, v)` returns, `get_data_node(p)`
returns the Data node holding `v`, regardless of what was previously appended.
The code violates this: after a successful `append('00', 3)` on a height-2
tree, `append('01', 4)` unconditionally replaces the root's left child with a
fresh empty InteriorNode (detaching the existing subtree) and then raises
TypeError inside `_rehash` when it concatenates that node's unset hash with
bytes; afterwards neither prefix is retrievable. -/
theorem c1_append_get_roundtrip_code_bug :
    resTag (append t2 p00 3) = ResTag.ok ∧
    dataAt s1 p00 = some 3 ∧
    resTag (append s1 p01 4) = ResTag.crash ∧
    dataAt s2 p01 = none ∧
    dataAt s2 p00 = none :=
  ⟨rfl, rfl, rfl, rfl, rfl⟩

/-- C2: the spec claims that whenever a value has been appended at `p`,
`validate_inclusion_proof(p, produce_inclusion_proof(p), hash(serialize(v)),
get_root_hash())` is true.  This holds for the tree with the single appended
value 3 at '00', but after the subsequent `append('01', 4)` raises TypeError
(leaving its partial mutations behind, as Python does), the proof for the
still-appended value 3 at '00' degenerates to the empty list and validation
returns false. -/
theorem c2_proof_roundtrip_code_bug :
    resTag (append t2 p00 3) = ResTag.ok ∧
    validateInclusionProof s1 p00 ((produceInclusionProof s1 p00).toOption.getD [])
      (testHash (testSer 3)) ((getRootHash s1).getD []) = .ok true ∧
    resTag (append s1 p01 4) = ResTag.crash ∧
    produceInclusionProof s2 p00 = .ok [] ∧
    validateInclusionProof s2 p00 [] (testHash (testSer 3))
      ((getRootHash s2).getD []) = .ok false :=
  ⟨rfl, rfl, rfl, rfl, rfl⟩

/-- C3: the spec's digest-consistency invariant must hold for every node
reachable from the root after every public operation returns.  The code
violates it: on a height-1 append-only tree the very first `append('0', 7)`
links the new DataNode under the root and only then raises AppendOnlyError,
never rehashing; subsequent public operations (here `get_root_hash`) return
with the root's stored digest still the empty-tree hash, not
`hash_func(left_digest ++ right_digest)`. -/
theorem c3_digest_invariant_code_bug :
    treeConsistent tAO = true ∧
    resTag aoRes = ResTag.aoRaise ∧
    getRootHash (resState aoRes) = some (emptyTreeHash testHash 1 0) ∧
    treeConsistent (resState aoRes) = false :=
  ⟨rfl, rfl, rfl, rfl⟩

/-- C4: the spec claims `append` raises the append-only error exactly when the
flag is set and a Data node already occupies the terminal slot, so a first
append to an unoccupied prefix must succeed.  The code's terminal-level else
branch raises AppendOnlyError unconditionally whenever the flag is set: the
first-ever append to an empty append-only tree raises. -/
theorem c4_append_only_first_append_code_bug :
    tAO.appendOnly = true ∧
    dataAt tAO ['0'] = none ∧
    resTag (append tAO ['0'] 7) = ResTag.aoRaise :=
  ⟨rfl, rfl, rfl⟩

/-- C5: the spec claims that when append raises the append-only error no
mutation is visible.  The code links the new DataNode into the tree before
raising: after the failed append, `get_data_node('0')` finds the new value 7
where it previously found nothing. -/
theorem c5_append_only_mutation_code_bug :
    resTag aoRes = ResTag.aoRaise ∧
    dataAt tAO ['0'] = none ∧
    dataAt (resState aoRes) ['0'] = some 7 :=
  ⟨rfl, rfl, rfl⟩

/-- C7: a freshly constructed tree's root digest equals
`empty_hash_table[0]`, with `empty_hash_table[H] = hash_func(k_empty)` and
`empty_hash_table[d] = hash_func(e ++ e)` for `e = empty_hash_table[d+1]`;
the value depends only on the height and the hash function, so two
independently constructed empty trees of the same height agree on it. -/
theorem c7_empty_root_digest {α : Type} (h : Nat) (ao : Bool)
    (hf : Digest → Digest) (sf : α → Digest) (t : MPT α)
    (hmk : mkTree α h ao hf sf = some t) :
    getRootHash t = some (emptyTreeHash hf h 0) ∧
    emptyTreeHash hf h h = hf kEmpty ∧
    (∀ d, d < h → emptyTreeHash hf h d =
      hf (emptyTreeHash hf h (d + 1) ++ emptyTreeHash hf h (d + 1))) ∧
    (∀ (ao2 : Bool) (sf2 : α → Digest) (u : MPT α),
      mkTree α h ao2 hf sf2 = some u → getRootHash u = getRootHash t) := by
  unfold mkTree at hmk
  by_cases hlt : h < 1
  · simp [hlt] at hmk
  · simp only [hlt, if_false, Option.some.injEq] at hmk
    subst hmk
    refine ⟨rfl, ?_, ?_, ?_⟩
    · simp [emptyTreeHash, Nat.sub_self, emptyHashAux]
    · intro d hd
      have hsub : h - d = (h - (d + 1)) + 1 := by omega
      simp [emptyTreeHash, hsub, emptyHashAux, hashHashes]
    · intro ao2 sf2 u hmk2
      unfold mkTree at hmk2
      simp only [hlt, if_false, Option.some.injEq] at hmk2
      subst hmk2
      rfl

/-- C7 witness: instantiation at height 2 with the concrete test functions. -/
theorem c7_empty_root_digest_witness :
    mkTree Nat 2 false testHash testSer = some t2 ∧
    (getRootHash t2 = some (emptyTreeHash testHash 2 0) ∧
     emptyTreeHash testHash 2 2 = testHash kEmpty ∧
     (∀ d, d < 2 → emptyTreeHash testHash 2 d =
       testHash (emptyTreeHash testHash 2 (d + 1) ++ emptyTreeHash testHash 2 (d + 1))) ∧
     (∀ (ao2 : Bool) (sf2 : Nat → Digest) (u : MPT Nat),
       mkTree Nat 2 ao2 testHash sf2 = some u → getRootHash u = getRootHash t2)) :=
  ⟨rfl, c7_empty_root_digest 2 false testHash testSer t2 rfl⟩

/-- C9: every prefix-taking public operation validates the prefix first
(length exactly the height, characters drawn from '0'/'1') and raises
ValueError before any traversal or mutation, so a failing call leaves the
tree exactly as it was. -/
theorem c9_invalid_pfx_rejected {α : Type} (t : MPT α) (p : List Char) (v : α)
    (pr : List (Option Digest)) (ihash rhash : Digest)
    (hbad : verifyPfx t p = false) :
    getDataNode t p = .error .valueErr ∧
    append t p v = .badPfx t ∧
    produceInclusionProof t p = .error .valueErr ∧
    validateInclusionProof t p pr ihash rhash = .error .valueErr := by
  refine ⟨?_, ?_, ?_, ?_⟩ <;>
    simp [getDataNode, append, produceInclusionProof, validateInclusionProof, hbad]

/-- C9 witness: a prefix of the wrong length against the height-2 tree. -/
theorem c9_invalid_pfx_rejected_witness :
    verifyPfx t2 ['0'] = false ∧
    (getDataNode t2 ['0'] = .error .valueErr ∧
     append t2 ['0'] 5 = .badPfx t2 ∧
     produceInclusionProof t2 ['0'] = .error .valueErr ∧
     validateInclusionProof t2 ['0'] [] [] [] = .error .valueErr) :=
  ⟨rfl, c9_invalid_pfx_rejected t2 ['0'] 5 [] [] [] rfl⟩

/-- C10: the validation fold runs over the length of the supplied proof, not
the tree height, so with an empty proof it returns true exactly when the
claimed leaf digest equals the claimed root digest. -/
theorem c10_validate_empty_proof {α : Type} (t : MPT α) (p : List Char)
    (ihash rhash : Digest) (hv : verifyPfx t p = true) :
    validateInclusionProof t p [] ihash rhash = .ok (ihash == rhash) ∧
    (validateInclusionProof t p [] ihash rhash = .ok true ↔ ihash = rhash) := by
  constructor
  · simp [validateInclusionProof, hv, validateGo]
  · simp [validateInclusionProof, hv, validateGo]

/-- C10 witness: concrete instance on the height-2 tree. -/
theorem c10_validate_empty_proof_witness :
    verifyPfx t2 p00 = true ∧
    (validateInclusionProof t2 p00 [] [5] [5] = .ok (([5] : Digest) == [5]) ∧
     (validateInclusionProof t2 p00 [] [5] [5] = .ok true ↔ ([5] : Digest) = [5])) :=
  ⟨rfl, c10_validate_empty_proof t2 p00 [5] [5] rfl⟩

/-- C8 counterexample: the claim says element 0 of a produced proof is the
sibling digest nearest the leaf's own level.  On the height-2 tree holding
value 3 at '00', the proof for '00' is `[empty_hash[1], empty_hash[2]]`:
element 0 is the depth-1 sibling digest — the one nearest the ROOT — and the
two differ, so element 0 is not the leaf-nearest sibling digest. -/
theorem c8_proof_order_counterexample :
    produceInclusionProof s1 p00 =
      .ok [some (emptyTreeHash testHash 2 1), some (emptyTreeHash testHash 2 2)] ∧
    emptyTreeHash testHash 2 1 ≠ emptyTreeHash testHash 2 2 := by
  exact ⟨rfl, by decide⟩

theorem verifyPfx_length {α : Type} {t : MPT α} {p : List Char}
    (hv : verifyPfx t p = true) : p.length = t.height := by
  simp only [verifyPfx, Bool.and_eq_true, beq_iff_eq] at hv
  exact hv.1

theorem produceGo_acc {α : Type} (hf : Digest → Digest) (height : Nat)
    (ns : List (TNode α)) :
    ∀ (bits : List Char) (a : Addr) (i : Nat) (acc : List (Option Digest)),
      (descend ns a bits).isSome →
      produceGo hf height ns a bits i acc = acc ++ produceGo hf height ns a bits i [] := by
  intro bits
  induction bits with
  | nil => intro a i acc _; simp [produceGo]
  | cons c cs ihb =>
    intro a i acc hd
    simp only [descend] at hd
    cases hslot : slotOf (getNode ns a) c with
    | none => rw [hslot] at hd; simp at hd
    | some b =>
      rw [hslot] at hd
      simp only [produceGo, hslot, List.nil_append]
      rw [ihb b (i + 1) _ hd]
      conv_rhs => rw [ihb b (i + 1) _ hd]
      simp

theorem produceGo_length_eq {α : Type} (hf : Digest → Digest) (height : Nat)
    (ns : List (TNode α)) :
    ∀ (bits : List Char) (a : Addr) (i : Nat),
      (descend ns a bits).isSome →
      (produceGo hf height ns a bits i []).length = bits.length := by
  intro bits
  induction bits with
  | nil => intro a i _; simp [produceGo]
  | cons c cs ihb =>
    intro a i hd
    simp only [descend] at hd
    cases hslot : slotOf (getNode ns a) c with
    | none => rw [hslot] at hd; simp at hd
    | some b =>
      rw [hslot] at hd
      simp only [produceGo, hslot]
      rw [produceGo_acc hf height ns cs b (i + 1) _ hd]
      simp [ihb b (i + 1) hd]

theorem produceGo_getD_eq {α : Type} (hf : Digest → Digest) (height : Nat)
    (ns : List (TNode α)) :
    ∀ (bits : List Char) (a : Addr) (i j : Nat),
      (descend ns a bits).isSome → j < bits.length →
      (produceGo hf height ns a bits i []).getD j none =
        (match descend ns a (bits.take j) with
         | none => none
         | some b =>
           match oppOf (getNode ns b) (bits.getD j ' ') with
           | some oa => (getNode ns oa).hash
           | none => some (emptyTreeHash hf height (i + j + 1))) := by
  intro bits
  induction bits with
  | nil => intro a i j _ hj; simp at hj
  | cons c cs ihb =>
    intro a i j hd hj
    simp only [descend] at hd
    cases hslot : slotOf (getNode ns a) c with
    | none => rw [hslot] at hd; simp at hd
    | some b =>
      rw [hslot] at hd
      simp only [produceGo, hslot]
      rw [produceGo_acc hf height ns cs b (i + 1) _ hd]
      cases j with
      | zero =>
        simp [List.take, descend, List.getD_cons_zero]
      | succ j2 =>
        have hj2 : j2 < cs.length := by simpa using hj
        have := ihb b (i + 1) j2 hd hj2
        simp only [List.take_succ_cons, descend, hslot, List.getD_cons_succ,
          List.nil_append, List.singleton_append]
        rw [this]
        have harith : i + 1 + j2 + 1 = i + (j2 + 1) + 1 := by omega
        rw [harith]

theorem validateGo_congr (hf : Digest → Digest) (p : List Char) :
    ∀ (fuel : Nat) (pr1 pr2 : List (Option Digest)) (calcH : Digest),
      (∀ i, i < fuel → pr1.getD i none = pr2.getD i none) →
      validateGo hf p pr1 calcH fuel = validateGo hf p pr2 calcH fuel := by
  intro fuel
  induction fuel with
  | zero => intro pr1 pr2 calcH _; rfl
  | succ f ihf =>
    intro pr1 pr2 calcH hagree
    simp only [validateGo]
    by_cases hf2 : f < p.length
    · simp only [hf2, if_true]
      rw [hagree f (Nat.lt_succ_self f)]
      cases pr2.getD f none with
      | none => rfl
      | some pd => exact ihf pr1 pr2 _ (fun i hi => hagree i (Nat.lt_succ_of_lt hi))
    · simp [hf2]

theorem getD_dropLast_of_lt {γ : Type} (l : List γ) (d : γ) (i : Nat)
    (hi : i < l.length - 1) : l.dropLast.getD i d = l.getD i d := by
  rw [List.dropLast_eq_take, List.getD_eq_get?, List.getD_eq_get?,
    List.get?_take hi]

theorem validate_consumes_last {α : Type} (t : MPT α) (p : List Char)
    (l : List (Option Digest)) (hv : verifyPfx t p = true)
    (hlen : l.length = t.height) (ihash rhash d : Digest)
    (hlast : l.getD (t.height - 1) none = some d) :
    validateInclusionProof t p l ihash rhash =
    validateInclusionProof t p l.dropLast
      (hashHashes t.hashFunc
        (if p.getD (t.height - 1) ' ' = '0' then ihash else d)
        (if p.getD (t.height - 1) ' ' = '1' then ihash else d)) rhash := by
  have hp : p.length = t.height := verifyPfx_length hv
  cases hh : t.height with
  | zero =>
    have hnil : l = [] := List.length_eq_zero.mp (by rw [hlen, hh])
    rw [hnil] at hlast
    simp at hlast
  | succ m =>
    rw [hh] at hlast
    simp only [Nat.succ_sub_one] at hlast
    have hmp : m < p.length := by omega
    have hlen2 : l.length = m + 1 := by rw [hlen, hh]
    have hdl : l.dropLast.length = m := by simp [List.length_dropLast, hlen2]
    simp only [Nat.succ_sub_one]
    simp only [validateInclusionProof, hv, if_true, hlen2, hdl]
    have hstep : validateGo t.hashFunc p l ihash (m + 1) =
        validateGo t.hashFunc p l
          (hashHashes t.hashFunc
            (if p.getD m ' ' = '0' then ihash else d)
            (if p.getD m ' ' = '1' then ihash else d)) m := by
      simp only [validateGo, hmp, if_true, hlast]
    rw [hstep]
    rw [validateGo_congr t.hashFunc p m l.dropLast l _
      (fun i hi => getD_dropLast_of_lt l none i (by omega))]

/-- C8 (amended): for a fully materialized root-to-leaf path the produced
proof has exactly H elements, element `j` being the digest of the sibling of
the path node at depth `j + 1` — so element 0 is the sibling nearest the
ROOT, element H−1 the sibling nearest the leaf — and the validation fold
consumes element H−1 first (combining it with the claimed leaf digest, placed
left or right by bit H−1), i.e. bottom-up, keeping the convention consistent
with top-down production. -/
theorem c8_proof_order_amended {α : Type} (t : MPT α) (p : List Char)
    (hv : verifyPfx t p = true) (hm : fullPath t p = true) :
    ∃ l, produceInclusionProof t p = .ok l ∧
      l.length = t.height ∧
      (∀ j, j < t.height → l.getD j none = sibDigestAt t p j) ∧
      (∀ (ihash rhash d : Digest), l.getD (t.height - 1) none = some d →
        validateInclusionProof t p l ihash rhash =
        validateInclusionProof t p l.dropLast
          (hashHashes t.hashFunc
            (if p.getD (t.height - 1) ' ' = '0' then ihash else d)
            (if p.getD (t.height - 1) ' ' = '1' then ihash else d)) rhash) := by
  have hp : p.length = t.height := verifyPfx_length hv
  have hds : (descend t.nodes 0 p).isSome := hm
  refine ⟨produceGo t.hashFunc t.height t.nodes 0 p 0 [], ?_, ?_, ?_, ?_⟩
  · simp [produceInclusionProof, hv]
  · rw [produceGo_length_eq t.hashFunc t.height t.nodes p 0 0 hds, hp]
  · intro j hj
    rw [produceGo_getD_eq t.hashFunc t.height t.nodes p 0 0 j hds (hp ▸ hj)]
    simp [sibDigestAt]
  · intro ihash rhash d hlast
    have hlen : (produceGo t.hashFunc t.height t.nodes 0 p 0 []).length = t.height := by
      rw [produceGo_length_eq t.hashFunc t.height t.nodes p 0 0 hds, hp]
    exact validate_consumes_last t p _ hv hlen ihash rhash d hlast

/-- C8 witness: the height-2 tree holding 3 at '00' has a fully materialized
path for '00'. -/
theorem c8_proof_order_amended_witness :
    verifyPfx s1 p00 = true ∧ fullPath s1 p00 = true ∧
    (∃ l, produceInclusionProof s1 p00 = .ok l ∧
      l.length = s1.height ∧
      (∀ j, j < s1.height → l.getD j none = sibDigestAt s1 p00 j) ∧
      (∀ (ihash rhash d : Digest), l.getD (s1.height - 1) none = some d →
        validateInclusionProof s1 p00 l ihash rhash =
        validateInclusionProof s1 p00 l.dropLast
          (hashHashes s1.hashFunc
            (if p00.getD (s1.height - 1) ' ' = '0' then ihash else d)
            (if p00.getD (s1.height - 1) ' ' = '1' then ihash else d)) rhash)) :=
  ⟨rfl, rfl, c8_proof_order_amended s1 p00 rfl rfl⟩

theorem getNode_eq_get? {α : Type} (ns : List (TNode α)) (a : Addr) :
    getNode ns a = (ns.get? a).getD dfltNode := by
  rw [getNode, List.getD_eq_get?]

theorem length_setNode {α : Type} (ns : List (TNode α)) (z : Addr)
    (f : TNode α → TNode α) : (setNode ns z f).length = ns.length := by
  simp [setNode]

theorem get?_setNode_ne {α : Type} (ns : List (TNode α)) (z : Addr)
    (f : TNode α → TNode α) (a : Addr) (h : z ≠ a) :
    (setNode ns z f).get? a = ns.get? a := by
  unfold setNode
  exact List.get?_set_ne _ ns h

theorem getNode_setNode_ne {α : Type} (ns : List (TNode α)) (z : Addr)
    (f : TNode α → TNode α) (a : Addr) (h : z ≠ a) :
    getNode (setNode ns z f) a = getNode ns a := by
  rw [getNode_eq_get?, getNode_eq_get?, get?_setNode_ne ns z f a h]

theorem getNode_setNode {α : Type} (ns : List (TNode α)) (z a : Addr)
    (f : TNode α → TNode α) :
    getNode (setNode ns z f) a =
      if z = a ∧ z < ns.length then f (getNode ns z) else getNode ns a := by
  by_cases h1 : z = a
  · subst h1
    by_cases h2 : z < ns.length
    · simp only [h2, and_true, if_true, true_and]
      rw [getNode_eq_get?, setNode, List.get?_set_eq_of_lt _ h2]
      rfl
    · have hz : ns.get? z = none := List.get?_len_le (Nat.le_of_not_lt h2)
      simp only [h2, and_false, if_false]
      rw [getNode_eq_get?, getNode_eq_get?, setNode, List.get?_set_eq, hz]
      rfl
  · simp only [h1, false_and, if_false]
    exact getNode_setNode_ne ns z f a h1

theorem getNode_setNode_proj {α : Type} {β : Type} (g : TNode α → β)
    (ns : List (TNode α)) (z a : Addr) (f : TNode α → TNode α)
    (hf2 : ∀ n, g (f n) = g n) :
    g (getNode (setNode ns z f) a) = g (getNode ns a) := by
  rw [getNode_setNode]
  split
  · rename_i h
    obtain ⟨rfl, -⟩ := h
    rw [hf2]
  · rfl

theorem get?_setSlot_ne {α : Type} (ns : List (TNode α)) (z : Addr) (c : Char)
    (w a : Addr) (h : z ≠ a) : (setSlot ns z c w).get? a = ns.get? a := by
  unfold setSlot setLeft setRight
  split <;> exact get?_setNode_ne ns z _ a h

theorem get?_setParent_ne {α : Type} (ns : List (TNode α)) (z w a : Addr)
    (h : z ≠ a) : (setParent ns z w).get? a = ns.get? a := by
  unfold setParent
  exact get?_setNode_ne ns z _ a h

theorem getNode_setSlot_ne {α : Type} (ns : List (TNode α)) (z : Addr) (c : Char)
    (w a : Addr) (h : z ≠ a) : getNode (setSlot ns z c w) a = getNode ns a := by
  rw [getNode_eq_get?, getNode_eq_get?, get?_setSlot_ne ns z c w a h]

theorem getNode_setParent_ne {α : Type} (ns : List (TNode α)) (z w a : Addr)
    (h : z ≠ a) : getNode (setParent ns z w) a = getNode ns a := by
  rw [getNode_eq_get?, getNode_eq_get?, get?_setParent_ne ns z w a h]

theorem parent_setSlot {α : Type} (ns : List (TNode α)) (z : Addr) (c : Char)
    (w a : Addr) :
    (getNode (setSlot ns z c w) a).parent = (getNode ns a).parent := by
  unfold setSlot setLeft setRight
  split <;> exact getNode_setNode_proj TNode.parent ns z a _ (fun n => rfl)

theorem parent_setHash {α : Type} (ns : List (TNode α)) (z : Addr) (d : Digest)
    (a : Addr) :
    (getNode (setHash ns z d) a).parent = (getNode ns a).parent := by
  unfold setHash
  exact getNode_setNode_proj TNode.parent ns z a _ (fun n => rfl)

theorem isData_setSlot {α : Type} (ns : List (TNode α)) (z : Addr) (c : Char)
    (w a : Addr) :
    (getNode (setSlot ns z c w) a).isData = (getNode ns a).isData := by
  unfold setSlot setLeft setRight
  split <;> exact getNode_setNode_proj TNode.isData ns z a _ (fun n => rfl)

theorem isData_setParent {α : Type} (ns : List (TNode α)) (z w a : Addr) :
    (getNode (setParent ns z w) a).isData = (getNode ns a).isData := by
  unfold setParent
  exact getNode_setNode_proj TNode.isData ns z a _ (fun n => rfl)

theorem getNode_setParent_self {α : Type} (ns : List (TNode α)) (z w : Addr)
    (h : z < ns.length) :
    getNode (setParent ns z w) z = { getNode ns z with parent := some w } := by
  unfold setParent
  rw [getNode_setNode]
  simp [h]

theorem length_setSlot {α : Type} (ns : List (TNode α)) (z : Addr) (c : Char)
    (w : Addr) : (setSlot ns z c w).length = ns.length := by
  unfold setSlot setLeft setRight
  split <;> exact length_setNode ns z _

theorem length_setParent {α : Type} (ns : List (TNode α)) (z w : Addr) :
    (setParent ns z w).length = ns.length :=
  length_setNode ns z _

theorem length_setHash {α : Type} (ns : List (TNode α)) (z : Addr) (d : Digest) :
    (setHash ns z d).length = ns.length :=
  length_setNode ns z _

theorem get?_setHash_ne {α : Type} (ns : List (TNode α)) (z : Addr) (d : Digest)
    (a : Addr) (h : z ≠ a) : (setHash ns z d).get? a = ns.get? a := by
  unfold setHash
  exact get?_setNode_ne ns z _ a h

theorem getNode_append_lt {α : Type} (ns l : List (TNode α)) (a : Addr)
    (h : a < ns.length) : getNode (ns ++ l) a = getNode ns a := by
  rw [getNode_eq_get?, getNode_eq_get?, List.get?_append h]

theorem getNode_append_self {α : Type} (ns : List (TNode α)) (x : TNode α) :
    getNode (ns ++ [x]) ns.length = x := by
  rw [getNode_eq_get?, List.get?_concat_length]
  rfl

theorem mem_pathAddrs_self {α : Type} (ns : List (TNode α)) (a : Addr)
    (bits : List Char) : a ∈ pathAddrs ns a bits := by
  cases bits with
  | nil => simp [pathAddrs]
  | cons c cs =>
    simp only [pathAddrs]
    cases slotOf (getNode ns a) c <;> simp

theorem pathAddrs_congr {α : Type} (ns1 ns2 : List (TNode α)) :
    ∀ (bits : List Char) (a : Addr),
      (∀ x ∈ pathAddrs ns1 a bits, getNode ns2 x = getNode ns1 x) →
      pathAddrs ns2 a bits = pathAddrs ns1 a bits := by
  intro bits
  induction bits with
  | nil => intro a _; rfl
  | cons c cs ihb =>
    intro a hx
    have ha : getNode ns2 a = getNode ns1 a := hx a (mem_pathAddrs_self ns1 a (c :: cs))
    cases hs : slotOf (getNode ns1 a) c with
    | none => simp [pathAddrs, ha, hs]
    | some b =>
      have hrec : pathAddrs ns2 b cs = pathAddrs ns1 b cs := by
        refine ihb b ?_
        intro x hxm
        refine hx x ?_
        simp only [pathAddrs, hs]
        exact List.mem_cons_of_mem a hxm
      simp [pathAddrs, ha, hs, hrec]

theorem consecParentB_congr {α : Type} (ns1 ns2 : List (TNode α)) :
    ∀ (L : List Addr),
      (∀ x ∈ L, (getNode ns2 x).parent = (getNode ns1 x).parent) →
      consecParentB ns2 L = consecParentB ns1 L := by
  intro L
  induction L with
  | nil => intro _; rfl
  | cons x rest ihL =>
    intro hx
    cases rest with
    | nil => rfl
    | cons y rest2 =>
      simp only [consecParentB]
      rw [hx y (by simp), ihL ?_]
      intro z hz
      exact hx z (List.mem_cons_of_mem x hz)

theorem consecParentB_head {α : Type} (ns : List (TNode α)) (x y : Addr)
    (rest : List Addr) (h : consecParentB ns (x :: y :: rest) = true) :
    (getNode ns y).parent = some x ∧ consecParentB ns (y :: rest) = true := by
  simp only [consecParentB, Bool.and_eq_true, beq_iff_eq] at h
  exact h

theorem parentChain_congr {α : Type} (ns1 ns2 : List (TNode α))
    (hall : ∀ x, (getNode ns2 x).parent = (getNode ns1 x).parent) :
    ∀ (ch : List Addr) (a : Addr), parentChain ns1 a ch → parentChain ns2 a ch := by
  intro ch
  induction ch with
  | nil => intro a _; trivial
  | cons c cs ihc =>
    intro a h
    exact ⟨(hall a).trans h.1, ihc c h.2⟩

theorem chainLast_snoc (a z : Addr) : ∀ ch, chainLast a (ch ++ [z]) = z := by
  intro ch
  induction ch generalizing a with
  | nil => rfl
  | cons c cs ihc =>
    simp only [List.cons_append, chainLast]
    exact ihc c

theorem parentChain_snoc {α : Type} (ns : List (TNode α)) :
    ∀ (ch : List Addr) (a z : Addr), parentChain ns a ch →
      (getNode ns (chainLast a ch)).parent = some z →
      parentChain ns a (ch ++ [z]) := by
  intro ch
  induction ch with
  | nil => intro a z _ hp; exact ⟨hp, trivial⟩
  | cons c cs ihc =>
    intro a z h hp
    exact ⟨h.1, ihc c z h.2 hp⟩

theorem rehashGo_frame {α : Type} (hf : Digest → Digest) (height : Nat) :
    ∀ (fuel : Nat) (ns : List (TNode α)) (curr : Addr) (ch : List Addr),
      parentChain ns curr ch → fuel ≤ ch.length →
      ∀ a : Addr, a ∉ ch →
        (rehashNs (rehashGo hf height ns curr fuel)).get? a = ns.get? a := by
  intro fuel
  induction fuel with
  | zero => intro ns curr ch _ _ a _; rfl
  | succ f ihf =>
    intro ns curr ch hchain hle a ha
    cases ch with
    | nil => simp at hle
    | cons c cs =>
      obtain ⟨hp, hrest⟩ := hchain
      simp only [List.length_cons] at hle
      have hanotc : c ≠ a := fun h => ha (h ▸ List.mem_cons_self c cs)
      have hacs : a ∉ cs := fun h => ha (List.mem_cons_of_mem c h)
      simp only [rehashGo, hp]
      split
      · rename_i l r heql heqr
        have hchain2 : parentChain (setHash ns c (hashHashes hf l r)) c cs :=
          parentChain_congr ns _ (fun x => parent_setHash ns c _ x) cs c hrest
        rw [ihf (setHash ns c (hashHashes hf l r)) c cs hchain2 (by omega) a hacs]
        exact get?_setHash_ne ns c _ a hanotc
      · rfl

theorem appendGo_spec {α : Type} (ao : Bool) (dAddr : Addr) :
    ∀ (bits : List Char) (ns : List (TNode α)) (prevA : Addr),
      bits ≠ [] →
      (pathAddrs ns prevA bits).Nodup →
      (∀ x ∈ pathAddrs ns prevA bits, x < ns.length) →
      (∀ x ∈ (pathAddrs ns prevA bits).tail, x < dAddr) →
      consecParentB ns (pathAddrs ns prevA bits) = true →
      dAddr < ns.length →
      prevA ≠ dAddr →
      (framePres dAddr (pathAddrs ns prevA bits) ns (goNs (appendGo ao dAddr ns prevA bits)) ∧
       parentsPres ns.length dAddr ns (goNs (appendGo ao dAddr ns prevA bits)) ∧
       ns.length ≤ (goNs (appendGo ao dAddr ns prevA bits)).length ∧
       (getNode (goNs (appendGo ao dAddr ns prevA bits)) dAddr).isData
         = (getNode ns dAddr).isData) ∧
      (∀ (nsOut : List (TNode α)) (leaf : Addr),
        appendGo ao dAddr ns prevA bits = .done nsOut leaf →
        leaf = dAddr ∧
        ∃ ch, parentChain nsOut dAddr ch ∧ ch.length = bits.length ∧
          goodChain dAddr (pathAddrs ns prevA bits) ch ∧ chainLast dAddr ch = prevA) := by
  intro bits
  induction bits with
  | nil => intro ns prevA hne; exact absurd rfl hne
  | cons c cs ihb =>
    intro ns prevA _ hnd hrange htail hcons hdlt hpad
    have hprevmem : prevA ∈ pathAddrs ns prevA (c :: cs) :=
      mem_pathAddrs_self ns prevA (c :: cs)
    cases cs with
    | nil =>
      -- terminal level: link the data node, then raise or finish
      have hgoNs : goNs (appendGo ao dAddr ns prevA [c]) =
          setSlot (setParent ns dAddr prevA) prevA c dAddr := by
        cases ao <;> rfl
      refine ⟨⟨?_, ?_, ?_, ?_⟩, ?_⟩
      · intro a haD haP
        have haprev : a ≠ prevA := fun h => haP (h ▸ hprevmem)
        rw [hgoNs, get?_setSlot_ne _ prevA c _ a (Ne.symm haprev),
          get?_setParent_ne _ dAddr prevA a (Ne.symm (Nat.ne_of_lt haD))]
      · intro a _ hane
        rw [hgoNs, parent_setSlot, getNode_setParent_ne _ dAddr prevA a (Ne.symm hane)]
      · rw [hgoNs, length_setSlot, length_setParent]
      · rw [hgoNs, isData_setSlot, isData_setParent]
      · intro nsOut leaf heq
        cases ao with
        | true =>
          rw [show appendGo true dAddr ns prevA [c] =
            AppendGoRes.raiseAO (setSlot (setParent ns dAddr prevA) prevA c dAddr)
            from rfl] at heq
          exact AppendGoRes.noConfusion heq
        | false =>
          rw [show appendGo false dAddr ns prevA [c] =
            AppendGoRes.done (setSlot (setParent ns dAddr prevA) prevA c dAddr) dAddr
            from rfl] at heq
          injection heq with h1 h2
          subst h1
          subst h2
          refine ⟨rfl, [prevA], ⟨?_, trivial⟩, rfl, ?_, rfl⟩
          · rw [getNode_setSlot_ne _ prevA c _ dAddr hpad,
              getNode_setParent_self ns dAddr prevA hdlt]
          · intro x hx
            rw [List.mem_singleton] at hx
            exact Or.inl (hx ▸ hprevmem)
    | cons c2 cs2 =>
      -- nonterminal level: allocate a fresh interior node and relink
      have hprevlt : prevA < ns.length := hrange prevA hprevmem
      have hpf : prevA ≠ ns.length := Nat.ne_of_lt hprevlt
      have hdf : dAddr ≠ ns.length := Nat.ne_of_lt hdlt
      have hlen3 : (setSlot (setParent (ns ++ [freshInterior c]) ns.length prevA)
          prevA c ns.length).length = ns.length + 1 := by
        rw [length_setSlot, length_setParent, List.length_append]
        rfl
      have hget3_old : ∀ x, x < ns.length → x ≠ prevA →
          getNode (setSlot (setParent (ns ++ [freshInterior c]) ns.length prevA)
            prevA c ns.length) x = getNode ns x := by
        intro x hx1 hx2
        rw [getNode_setSlot_ne _ prevA c _ x (Ne.symm hx2),
          getNode_setParent_ne _ ns.length prevA x (Ne.symm (Nat.ne_of_lt hx1)),
          getNode_append_lt ns _ x hx1]
      have hpar3 : ∀ x, x < ns.length →
          (getNode (setSlot (setParent (ns ++ [freshInterior c]) ns.length prevA)
            prevA c ns.length) x).parent = (getNode ns x).parent := by
        intro x hx
        rw [parent_setSlot,
          getNode_setParent_ne _ ns.length prevA x (Ne.symm (Nat.ne_of_lt hx)),
          getNode_append_lt ns _ x hx]
      have hget3_f : getNode (setSlot (setParent (ns ++ [freshInterior c]) ns.length prevA)
          prevA c ns.length) ns.length = { freshInterior c with parent := some prevA } := by
        rw [getNode_setSlot_ne _ prevA c _ ns.length hpf,
          getNode_setParent_self _ ns.length prevA (by simp), getNode_append_self]
      have hisData3 : (getNode (setSlot (setParent (ns ++ [freshInterior c]) ns.length prevA)
          prevA c ns.length) dAddr).isData = (getNode ns dAddr).isData := by
        rw [hget3_old dAddr hdlt (Ne.symm hpad)]
      cases hslot : slotOf (getNode ns prevA) c with
      | some X =>
        have hgo2 : appendGo ao dAddr ns prevA (c :: c2 :: cs2) =
            appendGo ao dAddr
              (setSlot (setParent (ns ++ [freshInterior c]) ns.length prevA) prevA c ns.length)
              X (c2 :: cs2) := by
          rw [show appendGo ao dAddr ns prevA (c :: c2 :: cs2) =
            appendGo ao dAddr
              (setSlot (setParent (ns ++ [freshInterior c]) ns.length prevA) prevA c ns.length)
              ((slotOf (getNode ns prevA) c).getD ns.length) (c2 :: cs2) from rfl]
          rw [hslot]
          rfl
        have hP : pathAddrs ns prevA (c :: c2 :: cs2) =
            prevA :: pathAddrs ns X (c2 :: cs2) := by
          simp [pathAddrs, hslot]
        rw [hP] at hnd hrange htail hcons
        rw [hP]
        obtain ⟨hndprev, hndP2⟩ := List.nodup_cons.mp hnd
        have hrange2 : ∀ x ∈ pathAddrs ns X (c2 :: cs2), x < ns.length :=
          fun x hx => hrange x (List.mem_cons_of_mem prevA hx)
        have htail2 : ∀ x ∈ pathAddrs ns X (c2 :: cs2), x < dAddr := by
          intro x hx
          exact htail x (by rw [List.tail_cons]; exact hx)
        have hXmem : X ∈ pathAddrs ns X (c2 :: cs2) := mem_pathAddrs_self ns X (c2 :: cs2)
        have hXd : X < dAddr := htail2 X hXmem
        have hXlen : X < ns.length := hrange2 X hXmem
        have hXprev : X ≠ prevA := fun h => hndprev (h ▸ hXmem)
        have hXdAddr : X ≠ dAddr := Nat.ne_of_lt hXd
        -- shape of the tail path and the parent fact for X
        have hP2shape : ∃ rest, pathAddrs ns X (c2 :: cs2) = X :: rest := by
          cases hslot2 : slotOf (getNode ns X) c2 with
          | none => exact ⟨[], by simp [pathAddrs, hslot2]⟩
          | some y => exact ⟨pathAddrs ns y cs2, by simp [pathAddrs, hslot2]⟩
        obtain ⟨rest, hrest⟩ := hP2shape
        rw [hrest] at hcons
        obtain ⟨hXpar, hconsP2⟩ := consecParentB_head ns prevA X rest hcons
        rw [← hrest] at hconsP2
        -- the tail path survives the relinking writes
        have hPtrans : pathAddrs
            (setSlot (setParent (ns ++ [freshInterior c]) ns.length prevA) prevA c ns.length)
            X (c2 :: cs2) = pathAddrs ns X (c2 :: cs2) := by
          refine pathAddrs_congr ns _ (c2 :: cs2) X ?_
          intro x hx
          exact hget3_old x (hrange2 x hx) (fun h => hndprev (h ▸ hx))
        have hrec := ihb
          (setSlot (setParent (ns ++ [freshInterior c]) ns.length prevA) prevA c ns.length)
          X (by simp)
          (by rw [hPtrans]; exact hndP2)
          (by rw [hPtrans]; intro x hx; rw [hlen3]; exact Nat.lt_succ_of_lt (hrange2 x hx))
          (by rw [hPtrans]; intro x hx
              exact htail2 x (List.mem_of_mem_tail hx))
          (by rw [hPtrans]
              rw [consecParentB_congr ns _ (pathAddrs ns X (c2 :: cs2))
                (fun x hx => hpar3 x (hrange2 x hx))]
              exact hconsP2)
          (by rw [hlen3]; exact Nat.lt_succ_of_lt hdlt)
          hXdAddr
        obtain ⟨⟨frameR, parentsR, lenR, isDataR⟩, doneR⟩ := hrec
        rw [hPtrans] at frameR
        refine ⟨⟨?_, ?_, ?_, ?_⟩, ?_⟩
        · intro a haD haP
          rw [List.mem_cons, not_or] at haP
          obtain ⟨haprev, haP2⟩ := haP
          rw [hgo2]
          refine (frameR a haD haP2).trans ?_
          rw [get?_setSlot_ne _ prevA c _ a (Ne.symm haprev),
            get?_setParent_ne _ ns.length prevA a
              (Ne.symm (Nat.ne_of_lt (Nat.lt_trans haD hdlt)))]
          exact List.get?_append (Nat.lt_trans haD hdlt)
        · intro a halen hane
          rw [hgo2]
          refine (parentsR a ?_ hane).trans (hpar3 a halen)
          rw [hlen3]
          exact Nat.lt_succ_of_lt halen
        · rw [hgo2]
          refine Nat.le_trans ?_ lenR
          rw [hlen3]
          exact Nat.le_succ ns.length
        · rw [hgo2]
          exact isDataR.trans hisData3
        · intro nsOut leaf heq
          rw [hgo2] at heq
          obtain ⟨hleaf, ch, hchain, hchlen, hchgood, hchlast⟩ := doneR nsOut leaf heq
          rw [hPtrans] at hchgood
          refine ⟨hleaf, ch ++ [prevA], ?_, ?_, ?_, chainLast_snoc dAddr prevA ch⟩
          · refine parentChain_snoc nsOut ch dAddr prevA hchain ?_
            rw [hchlast]
            have hgoeq : goNs (appendGo ao dAddr
                (setSlot (setParent (ns ++ [freshInterior c]) ns.length prevA) prevA c ns.length)
                X (c2 :: cs2)) = nsOut := by rw [heq]; rfl
            rw [← hgoeq]
            refine (parentsR X (by rw [hlen3]; exact Nat.lt_succ_of_lt hXlen) hXdAddr).trans ?_
            exact (hpar3 X hXlen).trans hXpar
          · simp [hchlen]
          · intro x hx
            rcases List.mem_append.mp hx with hxc | hxp
            · rcases hchgood x hxc with hmem | hge
              · exact Or.inl (List.mem_cons_of_mem prevA hmem)
              · exact Or.inr hge
            · rw [List.mem_singleton] at hxp
              exact Or.inl (hxp ▸ List.mem_cons_self prevA _)
      | none =>
        have hgo2 : appendGo ao dAddr ns prevA (c :: c2 :: cs2) =
            appendGo ao dAddr
              (setSlot (setParent (ns ++ [freshInterior c]) ns.length prevA) prevA c ns.length)
              ns.length (c2 :: cs2) := by
          rw [show appendGo ao dAddr ns prevA (c :: c2 :: cs2) =
            appendGo ao dAddr
              (setSlot (setParent (ns ++ [freshInterior c]) ns.length prevA) prevA c ns.length)
              ((slotOf (getNode ns prevA) c).getD ns.length) (c2 :: cs2) from rfl]
          rw [hslot]
          rfl
        have hP : pathAddrs ns prevA (c :: c2 :: cs2) = [prevA] := by
          simp [pathAddrs, hslot]
        rw [hP] at hnd hrange htail hcons
        rw [hP]
        have hslotf : slotOf (getNode
            (setSlot (setParent (ns ++ [freshInterior c]) ns.length prevA) prevA c ns.length)
            ns.length) c2 = none := by
          rw [hget3_f]
          simp [slotOf, freshInterior]
        have hP2 : pathAddrs
            (setSlot (setParent (ns ++ [freshInterior c]) ns.length prevA) prevA c ns.length)
            ns.length (c2 :: cs2) = [ns.length] := by
          simp [pathAddrs, hslotf]
        have hrec := ihb
          (setSlot (setParent (ns ++ [freshInterior c]) ns.length prevA) prevA c ns.length)
          ns.length (by simp)
          (by rw [hP2]; exact List.nodup_singleton ns.length)
          (by rw [hP2]; intro x hx; rw [List.mem_singleton] at hx
              rw [hx, hlen3]; exact Nat.lt_succ_self ns.length)
          (by rw [hP2]; intro x hx; simp at hx)
          (by rw [hP2]; rfl)
          (by rw [hlen3]; exact Nat.lt_succ_of_lt hdlt)
          (Ne.symm hdf)
        obtain ⟨⟨frameR, parentsR, lenR, isDataR⟩, doneR⟩ := hrec
        rw [hP2] at frameR
        refine ⟨⟨?_, ?_, ?_, ?_⟩, ?_⟩
        · intro a haD haP
          rw [List.mem_singleton] at haP
          rw [hgo2]
          have haf : a ∉ [ns.length] := by
            rw [List.mem_singleton]
            exact Nat.ne_of_lt (Nat.lt_trans haD hdlt)
          refine (frameR a haD haf).trans ?_
          rw [get?_setSlot_ne _ prevA c _ a (Ne.symm haP),
            get?_setParent_ne _ ns.length prevA a
              (Ne.symm (Nat.ne_of_lt (Nat.lt_trans haD hdlt)))]
          exact List.get?_append (Nat.lt_trans haD hdlt)
        · intro a halen hane
          rw [hgo2]
          refine (parentsR a ?_ hane).trans (hpar3 a halen)
          rw [hlen3]
          exact Nat.lt_succ_of_lt halen
        · rw [hgo2]
          refine Nat.le_trans ?_ lenR
          rw [hlen3]
          exact Nat.le_succ ns.length
        · rw [hgo2]
          exact isDataR.trans hisData3
        · intro nsOut leaf heq
          rw [hgo2] at heq
          obtain ⟨hleaf, ch, hchain, hchlen, hchgood, hchlast⟩ := doneR nsOut leaf heq
          rw [hP2] at hchgood
          refine ⟨hleaf, ch ++ [prevA], ?_, ?_, ?_, chainLast_snoc dAddr prevA ch⟩
          · refine parentChain_snoc nsOut ch dAddr prevA hchain ?_
            rw [hchlast]
            have hgoeq : goNs (appendGo ao dAddr
                (setSlot (setParent (ns ++ [freshInterior c]) ns.length prevA) prevA c ns.length)
                ns.length (c2 :: cs2)) = nsOut := by rw [heq]; rfl
            rw [← hgoeq]
            refine (parentsR ns.length (by rw [hlen3]; exact Nat.lt_succ_self ns.length)
              (Ne.symm hdf)).trans ?_
            rw [hget3_f]
          · simp [hchlen]
          · intro x hx
            rcases List.mem_append.mp hx with hxc | hxp
            · rcases hchgood x hxc with hmem | hge
              · rw [List.mem_singleton] at hmem
                exact Or.inr (hmem ▸ Nat.le_of_lt hdlt)
              · exact Or.inr hge
            · rw [List.mem_singleton] at hxp
              exact Or.inl (hxp ▸ List.mem_cons_self prevA [])

/-- C6 (locality of insertion): for every tree whose root-to-`p` path is
structurally sane (`pathOk`: the addresses on the materialized path are
distinct, in range, and their parent back-pointers match the child links —
true of every tree the public API builds), an `append` at `p` leaves every
node off that path completely untouched — links, digest and payload — no
matter which of the four outcomes (success, invalid prefix, append-only
raise, rehash crash) occurs.  In particular digests of sibling subtrees not
sharing a prefix bit with `p` are unchanged and no other path is
structurally touched. -/
theorem c6_append_locality {α : Type} (t : MPT α) (p : List Char) (v : α)
    (hv : verifyPfx t p = true) (hok : pathOk t p = true) :
    ∀ a : Addr, a < t.nodes.length → a ∉ pathAddrs t.nodes 0 p →
      (resState (append t p v)).nodes.get? a = t.nodes.get? a := by
  intro a halen hapath
  have hokk := hok
  simp only [pathOk, Bool.and_eq_true, List.all_eq_true, decide_eq_true_eq] at hokk
  obtain ⟨⟨hnd, hrange⟩, hcons⟩ := hokk
  have h0len : 0 < t.nodes.length := hrange 0 (mem_pathAddrs_self t.nodes 0 p)
  cases p with
  | nil =>
    simp only [append, hv, if_true]
    simp only [appendGo]
    by_cases hd : (getNode (t.nodes ++ [mkDataNode ([] : List Char).getLast? v
        t.hashFunc t.serializeFunc]) 0).isData
    · simp only [rehash, hd, if_true]
      have hh0 : t.height = 0 := by
        have := verifyPfx_length hv
        simpa using this.symm
      rw [hh0]
      simp only [rehashGo, resState]
      exact List.get?_append halen
    · simp only [rehash, hd, if_false, resState]
      exact List.get?_append halen
  | cons c cs =>
    have htrans : pathAddrs (t.nodes ++ [mkDataNode (c :: cs).getLast? v
        t.hashFunc t.serializeFunc]) 0 (c :: cs) = pathAddrs t.nodes 0 (c :: cs) :=
      pathAddrs_congr t.nodes _ (c :: cs) 0
        (fun x hx => getNode_append_lt t.nodes _ x (hrange x hx))
    have hconstrans : consecParentB (t.nodes ++ [mkDataNode (c :: cs).getLast? v
        t.hashFunc t.serializeFunc])
        (pathAddrs (t.nodes ++ [mkDataNode (c :: cs).getLast? v
          t.hashFunc t.serializeFunc]) 0 (c :: cs)) = true := by
      rw [htrans, consecParentB_congr t.nodes _ (pathAddrs t.nodes 0 (c :: cs))
        (fun x hx => by rw [getNode_append_lt t.nodes _ x (hrange x hx)])]
      exact hcons
    have hlen0 : (t.nodes ++ [mkDataNode (c :: cs).getLast? v
        t.hashFunc t.serializeFunc]).length = t.nodes.length + 1 := by
      rw [List.length_append]
      rfl
    have hspec := appendGo_spec t.appendOnly t.nodes.length (c :: cs)
      (t.nodes ++ [mkDataNode (c :: cs).getLast? v t.hashFunc t.serializeFunc]) 0
      (by simp)
      (by rw [htrans]; exact hnd)
      (by rw [htrans]
          intro x hx
          rw [hlen0]
          exact Nat.lt_succ_of_lt (hrange x hx))
      (by rw [htrans]
          intro x hx
          exact hrange x (List.mem_of_mem_tail hx))
      hconstrans
      (by rw [hlen0]; exact Nat.lt_succ_self t.nodes.length)
      (Nat.ne_of_lt h0len)
    obtain ⟨⟨frameA, parentsA, lenA, isDataA⟩, doneA⟩ := hspec
    rw [htrans] at frameA
    simp only [append, hv, if_true]
    cases hgo : appendGo t.appendOnly t.nodes.length
        (t.nodes ++ [mkDataNode (c :: cs).getLast? v t.hashFunc t.serializeFunc]) 0
        (c :: cs) with
    | raiseAO nsA =>
      show nsA.get? a = t.nodes.get? a
      have hfa := frameA a halen hapath
      rw [hgo] at hfa
      simp only [goNs] at hfa
      exact hfa.trans (List.get?_append halen)
    | done nsA leaf =>
      obtain ⟨hleaf, ch, hchain, hchlen, hchgood, -⟩ := doneA nsA leaf hgo
      subst hleaf
      rw [htrans] at hchgood
      have hdata : (getNode nsA t.nodes.length).isData = true := by
        have h2 := isDataA
        rw [hgo] at h2
        simp only [goNs] at h2
        rw [h2, getNode_append_self]
        rfl
      have hfuel : t.height = (c :: cs).length := (verifyPfx_length hv).symm
      have hach : a ∉ ch := by
        intro hx
        rcases hchgood a hx with hmem | hge
        · exact hapath hmem
        · exact absurd halen (Nat.not_lt.mpr hge)
      have hframeB := rehashGo_frame t.hashFunc t.height t.height nsA t.nodes.length ch
        hchain (by rw [hchlen]; exact Nat.le_of_eq hfuel) a hach
      have hframeA : nsA.get? a = t.nodes.get? a := by
        have h2 := frameA a halen hapath
        rw [hgo] at h2
        simp only [goNs] at h2
        exact h2.trans (List.get?_append halen)
      simp only [rehash, hdata, if_true]
      cases hre : rehashGo t.hashFunc t.height nsA t.nodes.length t.height with
      | crashed nsB =>
        show nsB.get? a = t.nodes.get? a
        rw [hre] at hframeB
        simp only [rehashNs] at hframeB
        exact hframeB.trans hframeA
      | ok nsB =>
        show nsB.get? a = t.nodes.get? a
        rw [hre] at hframeB
        simp only [rehashNs] at hframeB
        exact hframeB.trans hframeA

/-- C6 witness: on the height-2 tree holding 3 at '00', an append at '01' —
which raises TypeError mid-rehash — still leaves the off-path node at
address 1 (the DataNode of '00') untouched. -/
theorem c6_append_locality_witness :
    verifyPfx s1 p01 = true ∧ pathOk s1 p01 = true ∧
    (resState (append s1 p01 4)).nodes.get? 1 = s1.nodes.get? 1 :=
  ⟨rfl, rfl, c6_append_locality s1 p01 4 rfl rfl 1 (by decide) (by decide)⟩
